import Mathlib

/-!
Verification of the gomcp repository (MCP proxy + analytics packages).

The development shallowly embeds the TypeScript sources:

* `packages/proxy/src/router.ts` — glob compilation and first-match routing
* `packages/proxy/src/middleware.ts` — filter/cache middleware and
  `executeMiddlewareChain`
* `packages/proxy/src/cache-store.ts` — `MemoryCacheStore`
* `packages/proxy/src/proxy.ts` — `McpProxy.callTool`
* `packages/analytics/src/collector.ts` — accumulators and flush
* `packages/analytics/src/middleware.ts` — per-session sampling
* `packages/analytics/src/utils.ts` — `percentile`

JavaScript `Map` objects are modelled as insertion-ordered association
lists, numbers appearing in statistics as rationals, thrown exceptions as
`Except`, and `Math.random()` draws as an explicit boolean stream.
-/

namespace Gomcp

/-! ### Glob matcher (`router.ts`, `globToRegex`)

`globToRegex` escapes every regex metacharacter except `*` and `?`, then
rewrites `*` to `.*` and `?` to `.`, and anchors the result as
`^pattern$`.  The compiled regex therefore matches a whole string where
`*` stands for a run of characters accepted by the JS regex dot, `?` for
exactly one such character, and every other pattern character for itself.
JavaScript's `.` (no `s` flag) rejects the line terminators U+000A,
U+000D, U+2028 and U+2029; `jsDotMatches` captures that. -/

/-- Characters matched by an (unflagged) JavaScript regex `.`:
everything except the four line terminators. -/
def jsDotMatches (c : Char) : Bool :=
  !(c == Char.ofNat 10 || c == Char.ofNat 13 ||
    c == Char.ofNat 0x2028 || c == Char.ofNat 0x2029)

/-- Fuel-indexed matcher for the regex compiled by `globToRegex`,
parameterised by the set `dot` of characters a wildcard may consume.
Each recursive call shrinks `pattern.length + s.length`, so fuel
`pattern.length + s.length + 1` always suffices (`globRun_iff_sem`). -/
def globRun (dot : Char → Bool) : Nat → List Char → List Char → Bool
  | 0, _, _ => false
  | f + 1, p, s =>
    match p, s with
    | [], [] => true
    | [], _ :: _ => false
    | c :: ps, s =>
      if c = '*' then
        globRun dot f ps s ||
          (match s with
           | [] => false
           | ch :: s2 => dot ch && globRun dot f (c :: ps) s2)
      else if c = '?' then
        match s with
        | [] => false
        | ch :: s2 => dot ch && globRun dot f ps s2
      else
        match s with
        | [] => false
        | ch :: s2 => (c == ch) && globRun dot f ps s2

/-- Whole-string matching of a compiled glob against a string, with
enough fuel to run to completion. -/
def globMatch (dot : Char → Bool) (p s : List Char) : Bool :=
  globRun dot (p.length + s.length + 1) p s

/-- Declarative semantics of the compiled glob: `*` consumes any run of
`dot`-characters (possibly empty), `?` exactly one `dot`-character, and
any other pattern character exactly itself. -/
inductive GlobSem (dot : Char → Bool) : List Char → List Char → Prop
  | nil : GlobSem dot [] []
  | star_skip {ps s} : GlobSem dot ps s → GlobSem dot ('*' :: ps) s
  | star_cons {ps c s} : dot c = true → GlobSem dot ('*' :: ps) s →
      GlobSem dot ('*' :: ps) (c :: s)
  | one {ps c s} : dot c = true → GlobSem dot ps s →
      GlobSem dot ('?' :: ps) (c :: s)
  | lit {p ps s} : p ≠ '*' → p ≠ '?' → GlobSem dot ps s →
      GlobSem dot (p :: ps) (p :: s)

theorem globRun_iff_sem (dot : Char → Bool) :
    ∀ (f : Nat) (p s : List Char), p.length + s.length < f →
      (globRun dot f p s = true ↔ GlobSem dot p s) := by
  intro f
  induction f with
  | zero => intro p s h; omega
  | succ f ih =>
    intro p s h
    match p, s with
    | [], [] =>
      simp only [globRun]
      exact ⟨fun _ => GlobSem.nil, fun _ => trivial⟩
    | [], c :: s2 =>
      simp only [globRun]
      constructor
      · intro hfalse; cases hfalse
      · intro hsem; cases hsem
    | c :: ps, s =>
      by_cases hstar : c = '*'
      · subst hstar
        simp only [globRun, if_pos rfl]
        constructor
        · intro hrun
          rcases Bool.or_eq_true_iff.mp hrun with h1 | h2
          · exact GlobSem.star_skip ((ih ps s (by simp at h ⊢; omega)).mp h1)
          · match s, h2 with
            | ch :: s2, h2 =>
              rcases Bool.and_eq_true_iff.mp h2 with ⟨hd, hrest⟩
              exact GlobSem.star_cons hd
                ((ih ('*' :: ps) s2 (by simp at h ⊢; omega)).mp hrest)
        · intro hsem
          apply Bool.or_eq_true_iff.mpr
          cases hsem with
          | star_skip hs =>
            exact Or.inl ((ih ps s (by simp at h ⊢; omega)).mpr hs)
          | star_cons hd hs =>
            refine Or.inr (Bool.and_eq_true_iff.mpr ⟨hd, ?_⟩)
            exact (ih ('*' :: ps) _ (by simp at h ⊢; omega)).mpr hs
          | lit hne _ _ => exact absurd rfl hne
      · by_cases hq : c = '?'
        · subst hq
          simp only [globRun, if_neg hstar, if_pos rfl]
          match s with
          | [] =>
            constructor
            · intro hfalse; cases hfalse
            · intro hsem; cases hsem
          | ch :: s2 =>
            constructor
            · intro hrun
              rcases Bool.and_eq_true_iff.mp hrun with ⟨hd, hrest⟩
              exact GlobSem.one hd
                ((ih ps s2 (by simp at h ⊢; omega)).mp hrest)
            · intro hsem
              cases hsem with
              | one hd hs =>
                exact Bool.and_eq_true_iff.mpr
                  ⟨hd, (ih ps s2 (by simp at h ⊢; omega)).mpr hs⟩
              | lit _ hne _ => exact absurd rfl hne
        · simp only [globRun, if_neg hstar, if_neg hq]
          match s with
          | [] =>
            constructor
            · intro hfalse; cases hfalse
            · intro hsem
              cases hsem with
              | star_skip _ => exact absurd rfl hstar
          | ch :: s2 =>
            constructor
            · intro hrun
              rcases Bool.and_eq_true_iff.mp hrun with ⟨hc, hrest⟩
              have hce : c = ch := by exact_mod_cast beq_iff_eq.mp hc
              subst hce
              exact GlobSem.lit hstar hq
                ((ih ps s2 (by simp at h ⊢; omega)).mp hrest)
            · intro hsem
              cases hsem with
              | star_skip _ => exact absurd rfl hstar
              | star_cons _ _ => exact absurd rfl hstar
              | one _ _ => exact absurd rfl hq
              | lit _ _ hs =>
                exact Bool.and_eq_true_iff.mpr
                  ⟨beq_self_eq_true c,
                   (ih ps s2 (by simp at h ⊢; omega)).mpr hs⟩

theorem globMatch_iff_sem (dot : Char → Bool) (p s : List Char) :
    globMatch dot p s = true ↔ GlobSem dot p s :=
  globRun_iff_sem dot (p.length + s.length + 1) p s (by omega)

/-! ### Router (`router.ts`) -/

/-- A routing rule `{ pattern, server }` (`types.ts`). -/
structure RoutingRule where
  pattern : String
  server : String
  deriving DecidableEq

/-- Embeds `globToRegex(pattern).test(toolName)`. -/
def globTest (pattern toolName : String) : Bool :=
  globMatch jsDotMatches pattern.data toolName.data

/-- Embeds `Router.resolve` (`router.ts` lines 32–39): scan the compiled
rules in order, returning the first server whose pattern matches. -/
def Router.resolve (rules : List RoutingRule) (toolName : String) : Option String :=
  match rules with
  | [] => none
  | r :: rest =>
    if globTest r.pattern toolName then some r.server
    else Router.resolve rest toolName

/-- C4 (counterexample).  The claim reads the compiled glob's `?` as
"matches exactly one character", so the single rule `{"?", "a"}` should
match the one-character tool name `"\n"` and `resolve` should return
`"a"`.  The compiled JavaScript regex `^.$` rejects `"\n"` (the regex
dot excludes line terminators), so `resolve` returns `none`. -/
theorem router_resolve_claim_counterexample :
    GlobSem (fun _ => true) ['?'] ['\n'] ∧
      ("\n".length = 1 ∧ Router.resolve [⟨"?", "a"⟩] "\n" = none) :=
  ⟨GlobSem.one rfl GlobSem.nil, by decide, by decide⟩

/-- C4 (amended): `Router.resolve` returns the server of the first
(lowest-index) rule whose compiled glob matches the whole tool name and
`none` when no rule matches (in particular always `none` on the empty
rule list), where — per `GlobSem` — `*` matches any run (possibly empty)
and `?` exactly one of the characters accepted by the JavaScript regex
dot, i.e. any character except the line terminators U+000A, U+000D,
U+2028, U+2029, and every other pattern character matches literally. -/
theorem router_resolve_first_glob_match :
    (∀ (rules : List RoutingRule) (t : String),
        Router.resolve rules t =
          (rules.find? fun r => globTest r.pattern t).map (fun r => r.server)) ∧
      (∀ (dot : Char → Bool) (p s : List Char),
        globMatch dot p s = true ↔ GlobSem dot p s) ∧
      (∀ t : String, Router.resolve [] t = none) := by
  refine ⟨?_, globMatch_iff_sem, fun _ => rfl⟩
  intro rules t
  induction rules with
  | nil => rfl
  | cons r rest ih =>
    by_cases hr : globTest r.pattern t
    · simp [Router.resolve, List.find?, hr]
    · simp [Router.resolve, List.find?, hr, ih]

/-! ### Middleware chain (`packages/proxy/src/middleware.ts`)

A middleware receives the call context and a `next` continuation.  The
embedding threads an explicit effect log (`List ε`) through the chain so
that the observable order of side effects can be stated; results are the
`{ content, isError }` records the TypeScript code passes around
(`isError` absent ≡ `false`). -/

/-- One `{ type, text }` content item of an MCP tool result. -/
structure ContentItem where
  type : String
  text : String
  deriving DecidableEq

/-- A middleware/tool-call result `{ content, isError? }`. -/
structure MiddlewareResult where
  content : List ContentItem
  isError : Bool
  deriving DecidableEq

/-- The mutable context `{ toolName, arguments, server }` built by
`McpProxy.callTool`; `arguments` stays opaque (type `α`). -/
structure MiddlewareContext (α : Type) where
  toolName : String
  arguments : α
  server : String

/-- A middleware `(ctx, next) → result`, with the effect log threaded
explicitly: the continuation consumes the current log. -/
def ProxyMiddleware (α ε : Type) : Type :=
  MiddlewareContext α → (List ε → List ε × MiddlewareResult) →
    List ε → List ε × MiddlewareResult

/-- Embeds `executeMiddlewareChain` (`middleware.ts` lines 199–216): the
source advances a mutable index through the array and runs the final
handler when the index passes the end; the embedding recurses over the
remaining suffix, which is the same traversal. -/
def executeMiddlewareChain {α ε : Type} (mws : List (ProxyMiddleware α ε))
    (ctx : MiddlewareContext α) (handler : List ε → List ε × MiddlewareResult)
    (log : List ε) : List ε × MiddlewareResult :=
  match mws with
  | [] => handler log
  | mw :: rest =>
    mw ctx (fun log2 => executeMiddlewareChain rest ctx handler log2) log

/-- The denial result built by the `filter` middleware. -/
def deniedResult (toolName : String) : MiddlewareResult :=
  ⟨[⟨"text", "Tool \"" ++ toolName ++ "\" is denied by filter policy"⟩], true⟩

/-- The allow-list rejection result built by the `filter` middleware. -/
def notInAllowResult (toolName : String) : MiddlewareResult :=
  ⟨[⟨"text", "Tool \"" ++ toolName ++ "\" is not in allow list"⟩], true⟩

/-- The test `opts.deny?.includes(ctx.toolName)`: true when `deny` is
present and contains the tool name exactly. -/
def denyHit (deny : Option (List String)) (toolName : String) : Bool :=
  match deny with
  | some d => d.contains toolName
  | none => false

/-- The test `opts.allow && !opts.allow.includes(ctx.toolName)`: true
when `allow` is present and does not contain the tool name exactly. -/
def allowMiss (allow : Option (List String)) (toolName : String) : Bool :=
  match allow with
  | some a => !(a.contains toolName)
  | none => false

/-- Embeds `filter` (`middleware.ts` lines 123–149): exact string
membership on both lists, denial checked first, `next` otherwise. -/
def filter {α ε : Type} (allow deny : Option (List String)) : ProxyMiddleware α ε :=
  fun ctx next log =>
    if denyHit deny ctx.toolName then (log, deniedResult ctx.toolName)
    else if allowMiss allow ctx.toolName then (log, notInAllowResult ctx.toolName)
    else next log

/-- Abstract observable behaviours of a middleware: either return a
result without calling `next` (after some effects), or perform effects,
call `next` once, perform post-effects and map the result. -/
inductive MwSpec (ε : Type) where
  | short (pre : List ε) (r : MiddlewareResult)
  | wrap (pre post : List ε) (f : MiddlewareResult → MiddlewareResult)

/-- Interpretation of an `MwSpec` behaviour as a middleware. -/
def interpMw {α ε : Type} : MwSpec ε → ProxyMiddleware α ε
  | .short pre r => fun _ _ log => (log ++ pre, r)
  | .wrap pre post f => fun _ next log =>
    let (log2, res) := next (log ++ pre)
    (log2 ++ post, f res)

/-- C6: `executeMiddlewareChain` invokes middleware in index order, the
final handler runs exactly when the end of the list is reached — for
`[A, B]` with handler `H` the observable effect order is
`A.pre, B.pre, H, B.post, A.post` — and a chain containing a middleware
that returns without calling `next` is independent of every later
middleware and of the final handler (neither is invoked). -/
theorem executeMiddlewareChain_order_and_short_circuit {α ε : Type} :
    (∀ (ctx : MiddlewareContext α) (aPre aPost bPre bPost hEv : ε)
        (fA fB : MiddlewareResult → MiddlewareResult) (rH : MiddlewareResult),
        executeMiddlewareChain
          [interpMw (.wrap [aPre] [aPost] fA), interpMw (.wrap [bPre] [bPost] fB)]
          ctx (fun log => (log ++ [hEv], rH)) [] =
          ([aPre, bPre, hEv, bPost, aPost], fA (fB rH))) ∧
      (∀ (ms1 : List (MwSpec ε)) (pre : List ε) (r : MiddlewareResult)
          (ms2 ms2' : List (ProxyMiddleware α ε)) (ctx : MiddlewareContext α)
          (h h' : List ε → List ε × MiddlewareResult) (log : List ε),
        executeMiddlewareChain
            (ms1.map interpMw ++ interpMw (.short pre r) :: ms2) ctx h log =
          executeMiddlewareChain
            (ms1.map interpMw ++ interpMw (.short pre r) :: ms2') ctx h' log) := by
  constructor
  · intro ctx aPre aPost bPre bPost hEv fA fB rH
    rfl
  · intro ms1 pre r
    induction ms1 with
    | nil => intro ms2 ms2' ctx h h' log; rfl
    | cons m ms1 ih =>
      intro ms2 ms2' ctx h h' log
      cases m with
      | short pre' r' => rfl
      | wrap pre' post' f' =>
        exact congrArg (fun t => (t.1 ++ post', f' t.2))
          (ih ms2 ms2' ctx h h' (log ++ pre'))

/-- C2 (counterexample).  With `filter({deny:["danger*"]})` and tool
name `"danger_rm"`, the claim asserts the denial result is returned and
the handler is never invoked; the source tests exact membership
(`deny.includes(toolName)`), so the handler does run and its result is
returned — even though the glob `"danger*"` does match `"danger_rm"`. -/
theorem filter_glob_claim_counterexample :
    executeMiddlewareChain [filter none (some ["danger*"])]
        (⟨"danger_rm", 0, "s"⟩ : MiddlewareContext Nat)
        (fun log => (log ++ [0], ⟨[⟨"text", "ok"⟩], false⟩)) [] =
      ([0], ⟨[⟨"text", "ok"⟩], false⟩) ∧
      (⟨[⟨"text", "ok"⟩], false⟩ : MiddlewareResult) ≠ deniedResult "danger_rm" ∧
      globTest "danger*" "danger_rm" = true :=
  ⟨by decide, by decide, by decide⟩

/-- C2 (amended): the `filter` middleware interprets `allow` and `deny`
entries as exact tool names, not globs.  The call is denied — returning
the denial result without invoking the handler — iff the tool name is an
exact member of `deny`; otherwise, when `allow` is present and the tool
name is not an exact member, the allow-list rejection is returned
without invoking the handler; otherwise the handler's outcome is
returned. -/
theorem filter_exact_membership {α ε : Type} :
    (∀ (allow : Option (List String)) (d : List String)
        (ctx : MiddlewareContext α) (h : List ε → List ε × MiddlewareResult)
        (log : List ε), d.contains ctx.toolName = true →
        executeMiddlewareChain [filter allow (some d)] ctx h log =
          (log, deniedResult ctx.toolName)) ∧
      (∀ (a : List String) (deny : Option (List String))
          (ctx : MiddlewareContext α) (h : List ε → List ε × MiddlewareResult)
          (log : List ε),
        denyHit deny ctx.toolName = false →
        a.contains ctx.toolName = false →
        executeMiddlewareChain [filter (some a) deny] ctx h log =
          (log, notInAllowResult ctx.toolName)) ∧
      (∀ (allow deny : Option (List String)) (ctx : MiddlewareContext α)
          (h : List ε → List ε × MiddlewareResult) (log : List ε),
        denyHit deny ctx.toolName = false →
        allowMiss allow ctx.toolName = false →
        executeMiddlewareChain [filter allow deny] ctx h log = h log) := by
  refine ⟨?_, ?_, ?_⟩
  · intro allow d ctx h log hd
    have hdh : denyHit (some d) ctx.toolName = true := hd
    simp [executeMiddlewareChain, filter, hdh]
  · intro a deny ctx h log hdeny ha
    have ham : allowMiss (some a) ctx.toolName = true := by
      show (a.contains ctx.toolName).not = true
      rw [ha]
      rfl
    simp [executeMiddlewareChain, filter, hdeny, ham]
  · intro allow deny ctx h log hdeny hallow
    simp [executeMiddlewareChain, filter, hdeny, hallow]

/-- C2 witness: concrete runs of the three amended branches. -/
theorem filter_exact_membership_witness :
    executeMiddlewareChain [filter none (some ["dangerous"])]
        (⟨"dangerous", 0, "s"⟩ : MiddlewareContext Nat)
        (fun log => (log ++ [0], ⟨[⟨"text", "ok"⟩], false⟩)) [] =
      ([], deniedResult "dangerous") ∧
      executeMiddlewareChain [filter (some ["search"]) none]
          (⟨"delete", 0, "s"⟩ : MiddlewareContext Nat)
          (fun log => (log ++ [0], ⟨[⟨"text", "ok"⟩], false⟩)) [] =
        ([], notInAllowResult "delete") ∧
      executeMiddlewareChain [filter (some ["search"]) (some ["dangerous"])]
          (⟨"search", 0, "s"⟩ : MiddlewareContext Nat)
          (fun log => (log ++ [0], ⟨[⟨"text", "ok"⟩], false⟩)) [] =
        ([0], ⟨[⟨"text", "ok"⟩], false⟩) :=
  ⟨filter_exact_membership.1 none ["dangerous"] _ _ _ (by decide),
   filter_exact_membership.2.1 ["search"] none _ _ _ (by decide) (by decide),
   by rw [filter_exact_membership.2.2 (some ["search"]) (some ["dangerous"])
       _ _ _ (by decide) (by decide)]; rfl⟩

/-! ### Cache key (`middleware.ts`, `cache`)

The cache middleware computes its key as
`JSON.stringify({ tool: ctx.toolName, args: ctx.arguments })`.  JSON
values are modelled by `Json` (numbers restricted to the integers used
here), with objects as insertion-ordered field lists — exactly what
`JSON.stringify` serialises, in property insertion order, with no key
sorting. -/

/-- A JSON value as passed to `JSON.stringify`; object fields keep their
insertion order. -/
inductive Json where
  | null
  | bool (b : Bool)
  | num (n : Int)
  | str (s : String)
  | arr (elems : List Json)
  | obj (fields : List (String × Json))

/-- Lower-case hex digit of `n % 16`. -/
def hexDigit (n : Nat) : Char :=
  if n < 10 then Char.ofNat (48 + n) else Char.ofNat (87 + n % 16)

/-- Four-digit hex rendering used by `\uXXXX` escapes. -/
def hex4 (n : Nat) : String :=
  String.mk [hexDigit (n / 4096 % 16), hexDigit (n / 256 % 16),
    hexDigit (n / 16 % 16), hexDigit (n % 16)]

/-- The escape `JSON.stringify` applies to one string character. -/
def escapeChar (c : Char) : String :=
  if c = '"' then "\\\""
  else if c = '\\' then "\\\\"
  else if c = '\n' then "\\n"
  else if c = '\r' then "\\r"
  else if c = '\t' then "\\t"
  else if c = Char.ofNat 8 then "\\b"
  else if c = Char.ofNat 12 then "\\f"
  else if c.toNat < 32 then "\\u" ++ hex4 c.toNat
  else String.singleton c

/-- A JSON string literal with its quotes and escapes. -/
def quoteString (s : String) : String :=
  "\"" ++ String.join (s.data.map escapeChar) ++ "\""

mutual

/-- `JSON.stringify` on the modelled values: fields and elements are
serialised in the order they occur, without any canonicalisation. -/
def stringify : Json → String
  | .null => "null"
  | .bool b => if b then "true" else "false"
  | .num n => toString n
  | .str s => quoteString s
  | .arr elems => "[" ++ stringifyElems elems ++ "]"
  | .obj fields => "\x7b" ++ stringifyFields fields ++ "\x7d"

/-- Comma-separated serialisation of array elements, in order. -/
def stringifyElems : List Json → String
  | [] => ""
  | [x] => stringify x
  | x :: y :: rest => stringify x ++ "," ++ stringifyElems (y :: rest)

/-- Comma-separated serialisation of object fields, in insertion
order. -/
def stringifyFields : List (String × Json) → String
  | [] => ""
  | [(k, v)] => quoteString k ++ ":" ++ stringify v
  | (k, v) :: f :: rest =>
    quoteString k ++ ":" ++ stringify v ++ "," ++ stringifyFields (f :: rest)

end

/-- Embeds the cache-key computation of the `cache` middleware
(`middleware.ts` line 162):
`JSON.stringify({ tool: ctx.toolName, args: ctx.arguments })`. -/
def cacheKey (toolName : String) (args : Json) : String :=
  stringify (Json.obj [("tool", Json.str toolName), ("args", args)])

/-- C3 (counterexample).  `{x:1,y:2}` and `{y:2,x:1}` are equal up to a
permutation of their keys, yet their cache keys differ byte-wise — the
key encoding does not sort object keys, so the claimed canonicalisation
does not hold and the second call misses the first call's entry. -/
theorem cacheKey_permutation_counterexample :
    ([("x", Json.num 1), ("y", Json.num 2)] : List (String × Json)).Perm
        [("y", Json.num 2), ("x", Json.num 1)] ∧
      cacheKey "t" (Json.obj [("x", Json.num 1), ("y", Json.num 2)]) ≠
        cacheKey "t" (Json.obj [("y", Json.num 2), ("x", Json.num 1)]) :=
  ⟨List.Perm.swap _ _ _, by decide⟩

/-- C3 (amended): the cache key is the plain `JSON.stringify` encoding
of `{ tool, args }` with object keys in insertion order — e.g. the key
for tool `"t"` and args `{x:1,y:2}` is exactly
`{"tool":"t","args":{"x":1,"y":2}}` — so argument objects that are equal
up to a key permutation generally produce different keys, and a second
call with `{y:2,x:1}` misses the entry stored for `{x:1,y:2}`. -/
theorem cacheKey_insertion_order :
    cacheKey "t" (Json.obj [("x", Json.num 1), ("y", Json.num 2)]) =
        "\x7b\"tool\":\"t\",\"args\":\x7b\"x\":1,\"y\":2\x7d\x7d" ∧
      cacheKey "t" (Json.obj [("y", Json.num 2), ("x", Json.num 1)]) =
        "\x7b\"tool\":\"t\",\"args\":\x7b\"y\":2,\"x\":1\x7d\x7d" ∧
      cacheKey "t" (Json.obj [("x", Json.num 1), ("y", Json.num 2)]) ≠
        cacheKey "t" (Json.obj [("y", Json.num 2), ("x", Json.num 1)]) :=
  ⟨by decide, by decide, by decide⟩

/-! ### MemoryCacheStore (`cache-store.ts`)

The store wraps a JavaScript `Map`, modelled as an insertion-ordered
association list: `Map.set` on a present key updates the value in place
(keeping its position), otherwise appends; `Map.delete` removes the key;
`Map.keys().next().value` is the first key.  `maxSize` is kept as an
integer because the constructor performs no validation
(`opts?.maxSize ?? 1000`), so zero and negative capacities are
representable. -/

/-- A stored cache entry `{ result, expiresAt }`. -/
structure CacheEntry (α : Type) where
  result : α
  expiresAt : Int
  deriving DecidableEq

/-- The `MemoryCacheStore` state: configured capacity and the backing
insertion-ordered map. -/
structure MemoryCacheStore (α : Type) where
  maxSize : Int
  entries : List (String × CacheEntry α)
  deriving DecidableEq

/-- `Map.has(k)`. -/
def mapHasKey {β : Type} (m : List (String × β)) (k : String) : Bool :=
  m.any (fun p => p.1 == k)

/-- `Map.get(k)`. -/
def mapLookup {β : Type} (m : List (String × β)) (k : String) : Option β :=
  (m.find? (fun p => p.1 == k)).map (fun p => p.2)

/-- `Map.set(k, v)`: update in place when present, else append. -/
def mapSet {β : Type} (m : List (String × β)) (k : String) (v : β) :
    List (String × β) :=
  if mapHasKey m k then m.map (fun p => if p.1 == k then (k, v) else p)
  else m ++ [(k, v)]

/-- `Map.delete(k)`. -/
def mapDelete {β : Type} (m : List (String × β)) (k : String) :
    List (String × β) :=
  m.filter (fun p => !(p.1 == k))

/-- Embeds the constructor (`cache-store.ts` lines 18–20):
`this.maxSize = opts?.maxSize ?? 1000` — no minimum is enforced. -/
def mkMemoryCacheStore (α : Type) (maxSizeOpt : Option Int) :
    MemoryCacheStore α :=
  ⟨maxSizeOpt.getD 1000, []⟩

/-- Embeds `MemoryCacheStore.set` (`cache-store.ts` lines 32–41): when
at capacity and the key is new, delete the first (oldest) key, then
`Map.set` the entry with `expiresAt = now + ttl·1000`. -/
def MemoryCacheStore.set {α : Type} (st : MemoryCacheStore α) (k : String)
    (v : α) (ttl now : Int) : MemoryCacheStore α :=
  let entries :=
    if st.maxSize ≤ (st.entries.length : Int) ∧ mapHasKey st.entries k = false then
      match st.entries.head? with
      | some (k0, _) => mapDelete st.entries k0
      | none => st.entries
    else st.entries
  ⟨st.maxSize, mapSet entries k ⟨v, now + ttl * 1000⟩⟩

/-- Embeds `MemoryCacheStore.get` (`cache-store.ts` lines 22–30): absent
keys and entries with `expiresAt ≤ now` read as `none`, expired entries
being deleted lazily. -/
def MemoryCacheStore.get {α : Type} (st : MemoryCacheStore α) (k : String)
    (now : Int) : Option α × MemoryCacheStore α :=
  match mapLookup st.entries k with
  | none => (none, st)
  | some e =>
    if e.expiresAt ≤ now then (none, ⟨st.maxSize, mapDelete st.entries k⟩)
    else (some e.result, st)

/-- Embeds `MemoryCacheStore.delete` (`cache-store.ts` lines 43–45). -/
def MemoryCacheStore.delete {α : Type} (st : MemoryCacheStore α)
    (k : String) : MemoryCacheStore α :=
  ⟨st.maxSize, mapDelete st.entries k⟩

/-- Insert a list of keys in order (value and expiry given pointwise). -/
def insertAll {α : Type} (st : MemoryCacheStore α) (ks : List String)
    (f : String → α) (ttl now : Int) : MemoryCacheStore α :=
  ks.foldl (fun s k => s.set k (f k) ttl now) st

theorem mapHasKey_map_mk {α : Type} (l : List String)
    (e : String → CacheEntry α) (k : String) :
    mapHasKey (l.map (fun x => (x, e x))) k = decide (k ∈ l) := by
  induction l with
  | nil => rfl
  | cons x l ih =>
    simp only [List.map_cons, mapHasKey, List.any_cons] at ih ⊢
    rw [ih]
    by_cases hx : x = k
    · subst hx; simp
    · have h1 : (x == k) = false := beq_eq_false_iff_ne.mpr hx
      have h2 : (k ∈ x :: l) ↔ k ∈ l := by
        constructor
        · intro h
          rcases List.mem_cons.mp h with h | h
          · exact absurd h.symm hx
          · exact h
        · exact List.mem_cons_of_mem x
      rw [h1]
      simp [h2]

theorem insertAll_maxSize {α : Type} (f : String → α) (ttl now : Int) :
    ∀ (ks : List String) (st : MemoryCacheStore α),
      (insertAll st ks f ttl now).maxSize = st.maxSize := by
  intro ks
  induction ks with
  | nil => intro st; rfl
  | cons k ks ih =>
    intro st
    have h1 : insertAll st (k :: ks) f ttl now =
        insertAll (st.set k (f k) ttl now) ks f ttl now := rfl
    rw [h1, ih]
    rfl

theorem mapDelete_head_map_mk {α : Type} (k0 : String) (mid : List String)
    (e : String → CacheEntry α) (hk0 : k0 ∉ mid) :
    mapDelete ((k0 :: mid).map (fun x => (x, e x))) k0 =
      mid.map (fun x => (x, e x)) := by
  simp only [List.map_cons, mapDelete, List.filter_cons]
  have h0 : (!(k0 == k0)) = false := by simp
  rw [h0]
  simp only [Bool.false_eq_true, if_false]
  apply List.filter_eq_self.mpr
  intro p hp
  rcases List.mem_map.mp hp with ⟨x, hx, rfl⟩
  have : x ≠ k0 := fun h => hk0 (h ▸ hx)
  simp [this]

theorem insertAll_fits {α : Type} (f : String → α) (ttl now M : Int) :
    ∀ (ks : List String), ks.Nodup → (ks.length : Int) ≤ M →
      insertAll (⟨M, []⟩ : MemoryCacheStore α) ks f ttl now =
        ⟨M, ks.map (fun x => (x, ⟨f x, now + ttl * 1000⟩))⟩ := by
  intro ks
  induction ks using List.reverseRecOn with
  | nil => intro _ _; rfl
  | append_singleton l k ih =>
    intro hnd hlen
    have hndl : l.Nodup := (List.nodup_append.mp hnd).1
    have hkl : k ∉ l := by
      intro hk
      exact (List.nodup_append.mp hnd).2.2 hk (List.mem_singleton_self k)
    have hlenl : (l.length : Int) ≤ M := by
      simp only [List.length_append, List.length_singleton] at hlen
      push_cast at hlen ⊢
      omega
    have hlt : (l.length : Int) < M := by
      simp only [List.length_append, List.length_singleton] at hlen
      push_cast at hlen ⊢
      omega
    have hfold : insertAll (⟨M, []⟩ : MemoryCacheStore α) (l ++ [k]) f ttl now =
        (insertAll ⟨M, []⟩ l f ttl now).set k (f k) ttl now := by
      simp [insertAll, List.foldl_append]
    rw [hfold, ih hndl hlenl]
    simp only [MemoryCacheStore.set]
    have hcond : ¬(M ≤ ((l.map (fun x =>
        (x, (⟨f x, now + ttl * 1000⟩ : CacheEntry α)))).length : Int) ∧
        mapHasKey (l.map (fun x =>
          (x, (⟨f x, now + ttl * 1000⟩ : CacheEntry α)))) k = false) := by
      intro hc
      rcases hc with ⟨hle, _⟩
      rw [List.length_map] at hle
      omega
    rw [if_neg hcond]
    have hhas : mapHasKey (l.map (fun x =>
        (x, (⟨f x, now + ttl * 1000⟩ : CacheEntry α)))) k = false := by
      rw [mapHasKey_map_mk]
      simp [hkl]
    simp only [mapSet, hhas, Bool.false_eq_true, if_false, List.map_append,
      List.map_singleton]

/-- C5: for the default store with capacity `M ≥ 1`, a `set` on a new
key at capacity deletes the oldest entry before inserting, a `set` on an
existing key never evicts, and — consequently — inserting `M + 1`
distinct keys into an empty store leaves exactly `M` entries with the
first-inserted key absent. -/
theorem memoryCacheStore_fifo_eviction {α : Type} :
    (∀ (M : Int) (k0 : String) (rest : List String) (f : String → α)
        (ttl now : Int), 1 ≤ M → (k0 :: rest).Nodup →
        ((k0 :: rest).length : Int) = M + 1 →
        ((insertAll (⟨M, []⟩ : MemoryCacheStore α) (k0 :: rest) f ttl
            now).entries.length : Int) = M ∧
          mapHasKey (insertAll (⟨M, []⟩ : MemoryCacheStore α) (k0 :: rest) f
            ttl now).entries k0 = false) ∧
      (∀ (st : MemoryCacheStore α) (k : String) (v : α) (ttl now : Int),
        mapHasKey st.entries k = true →
        (st.set k v ttl now).entries.length = st.entries.length) := by
  constructor
  · intro M k0 rest f ttl now hM hnd hlen
    rcases List.eq_nil_or_concat rest with rfl | ⟨mid, k, hrk⟩
    · exfalso
      simp only [List.length_cons, List.length_nil] at hlen
      push_cast at hlen
      omega
    rw [List.concat_eq_append] at hrk
    subst hrk
    have hconcat : k0 :: (mid ++ [k]) = (k0 :: mid) ++ [k] := rfl
    rw [hconcat] at hnd hlen ⊢
    have hndl : (k0 :: mid).Nodup := (List.nodup_append.mp hnd).1
    have hk0mid : k0 ∉ mid := (List.nodup_cons.mp hndl).1
    have hkl : k ∉ k0 :: mid := by
      intro hk
      exact (List.nodup_append.mp hnd).2.2 hk (List.mem_singleton_self k)
    have hk0ne : k0 ≠ k := fun h => hkl (h ▸ List.mem_cons_self k0 mid)
    have hkmid : k ∉ mid := fun hk => hkl (List.mem_cons_of_mem _ hk)
    have hlenl : ((k0 :: mid).length : Int) = M := by
      simp only [List.length_append, List.length_cons, List.length_nil,
        List.length_singleton] at hlen ⊢
      push_cast at hlen ⊢
      omega
    have hfold : insertAll (⟨M, []⟩ : MemoryCacheStore α)
        ((k0 :: mid) ++ [k]) f ttl now =
        (insertAll ⟨M, []⟩ (k0 :: mid) f ttl now).set k (f k) ttl now := by
      simp [insertAll, List.foldl_append]
    rw [hfold, insertAll_fits f ttl now M (k0 :: mid) hndl (le_of_eq hlenl)]
    simp only [MemoryCacheStore.set]
    have hcond : M ≤ (((k0 :: mid).map (fun x =>
        (x, (⟨f x, now + ttl * 1000⟩ : CacheEntry α)))).length : Int) ∧
        mapHasKey ((k0 :: mid).map (fun x =>
          (x, (⟨f x, now + ttl * 1000⟩ : CacheEntry α)))) k = false := by
      constructor
      · simp only [List.length_map]
        omega
      · rw [mapHasKey_map_mk]
        simp [hkl]
    rw [if_pos hcond]
    simp only [List.map_cons, List.head?_cons]
    have hdel := mapDelete_head_map_mk k0 mid
      (fun x => (⟨f x, now + ttl * 1000⟩ : CacheEntry α)) hk0mid
    simp only [List.map_cons] at hdel
    rw [hdel]
    have hhask : mapHasKey (mid.map (fun x =>
        (x, (⟨f x, now + ttl * 1000⟩ : CacheEntry α)))) k = false := by
      rw [mapHasKey_map_mk]
      simp [hkmid]
    constructor
    · simp only [mapSet, hhask, Bool.false_eq_true, if_false]
      simp only [List.length_append, List.length_map, List.length_singleton]
      simp only [List.length_append, List.length_cons, List.length_nil,
        List.length_singleton] at hlen
      push_cast at hlen ⊢
      omega
    · simp only [mapSet, hhask, Bool.false_eq_true, if_false]
      simp only [mapHasKey, List.any_append, List.any_cons, List.any_nil,
        Bool.or_false, Bool.or_eq_false_iff]
      constructor
      · rw [List.any_eq_false]
        intro p hp
        rcases List.mem_map.mp hp with ⟨x, hx, rfl⟩
        have hxne : x ≠ k0 := fun h => hk0mid (h ▸ hx)
        simp [hxne]
      · simp [hk0ne.symm]
  · intro st k v ttl now hk
    simp only [MemoryCacheStore.set]
    have hcond : ¬(st.maxSize ≤ (st.entries.length : Int) ∧
        mapHasKey st.entries k = false) := by
      intro hc
      rw [hk] at hc
      exact absurd hc.2 (by simp)
    rw [if_neg hcond]
    simp [mapSet, hk]

/-- C5 witness: capacity 2, inserting the three distinct keys
`a`, `b`, `c` leaves two entries and evicts `a`; a `set` on an existing
key leaves the entry count unchanged. -/
theorem memoryCacheStore_fifo_eviction_witness :
    (((insertAll (⟨2, []⟩ : MemoryCacheStore Nat) ["a", "b", "c"]
        (fun _ => 0) 60 0).entries.length : Int) = 2 ∧
      mapHasKey (insertAll (⟨2, []⟩ : MemoryCacheStore Nat) ["a", "b", "c"]
        (fun _ => 0) 60 0).entries "a" = false) ∧
      ((⟨2, [("a", ⟨0, 0⟩)]⟩ : MemoryCacheStore Nat).set "a" 1 60
        0).entries.length = [("a", (⟨0, 0⟩ : CacheEntry Nat))].length :=
  ⟨memoryCacheStore_fifo_eviction.1 2 "a" ["b", "c"] (fun _ => 0) 60 0
      (by decide) (by decide) (by decide),
    memoryCacheStore_fifo_eviction.2 ⟨2, [("a", ⟨0, 0⟩)]⟩ "a" 1 60 0
      (by decide)⟩

/-- One public operation of the `CacheStore` interface, with the clock
value observed by the operation. -/
inductive StoreOp (α : Type) where
  | set (k : String) (v : α) (ttl now : Int)
  | get (k : String) (now : Int)
  | del (k : String)

/-- Apply one store operation. -/
def applyOp {α : Type} (st : MemoryCacheStore α) : StoreOp α → MemoryCacheStore α
  | .set k v ttl now => st.set k v ttl now
  | .get k now => (st.get k now).2
  | .del k => st.delete k

/-- Apply a sequence of store operations in order. -/
def applyOps {α : Type} (st : MemoryCacheStore α) (ops : List (StoreOp α)) :
    MemoryCacheStore α :=
  ops.foldl applyOp st

theorem mapSet_length_of_has {β : Type} (m : List (String × β)) (k : String)
    (v : β) (h : mapHasKey m k = true) : (mapSet m k v).length = m.length := by
  simp [mapSet, h]

theorem mapSet_length_of_not_has {β : Type} (m : List (String × β))
    (k : String) (v : β) (h : mapHasKey m k = false) :
    (mapSet m k v).length = m.length + 1 := by
  simp [mapSet, h]

theorem mapDelete_cons_self_length {β : Type} (p : String × β)
    (rest : List (String × β)) :
    (mapDelete (p :: rest) p.1).length ≤ rest.length := by
  simp only [mapDelete, List.filter_cons, beq_self_eq_true, Bool.not_true,
    Bool.false_eq_true, if_false]
  exact List.length_filter_le _ _

theorem mapDelete_length_le {β : Type} (m : List (String × β)) (k : String) :
    (mapDelete m k).length ≤ m.length :=
  List.length_filter_le _ _

theorem applyOp_size_bound {α : Type} (st : MemoryCacheStore α)
    (op : StoreOp α) (h : (st.entries.length : Int) ≤ max st.maxSize 1) :
    ((applyOp st op).entries.length : Int) ≤ max st.maxSize 1 ∧
      (applyOp st op).maxSize = st.maxSize := by
  have hmx1 : (1 : Int) ≤ max st.maxSize 1 := le_max_right _ _
  have hmxM : st.maxSize ≤ max st.maxSize 1 := le_max_left _ _
  cases op with
  | set k v ttl now =>
    refine ⟨?_, rfl⟩
    simp only [applyOp, MemoryCacheStore.set]
    by_cases hc : st.maxSize ≤ (st.entries.length : Int) ∧
        mapHasKey st.entries k = false
    · rw [if_pos hc]
      cases hent : st.entries with
      | nil =>
        simp only [List.head?_nil]
        have h1 : (mapSet ([] : List (String × CacheEntry α)) k
            ⟨v, now + ttl * 1000⟩).length = 1 := rfl
        rw [h1]
        exact_mod_cast hmx1
      | cons p rest =>
        obtain ⟨k0, e0⟩ := p
        simp only [List.head?_cons]
        have h1 : (mapDelete ((k0, e0) :: rest) k0).length ≤ rest.length :=
          mapDelete_cons_self_length (k0, e0) rest
        have h2 : (mapSet (mapDelete ((k0, e0) :: rest) k0) k
            ⟨v, now + ttl * 1000⟩).length ≤ rest.length + 1 := by
          by_cases hk2 : mapHasKey (mapDelete ((k0, e0) :: rest) k0) k = true
          · rw [mapSet_length_of_has _ _ _ hk2]
            omega
          · rw [mapSet_length_of_not_has _ _ _ (by simpa using hk2)]
            omega
        have h3 : st.entries.length = rest.length + 1 := by rw [hent]; rfl
        rw [h3] at h
        calc ((mapSet (mapDelete ((k0, e0) :: rest) k0) k
            ⟨v, now + ttl * 1000⟩).length : Int) ≤ ((rest.length + 1 : Nat) : Int) := by
              exact_mod_cast h2
          _ ≤ max st.maxSize 1 := h
    · rw [if_neg hc]
      by_cases hk : mapHasKey st.entries k = true
      · rw [show ((mapSet st.entries k ⟨v, now + ttl * 1000⟩).length : Int) =
            (st.entries.length : Int) by
          exact_mod_cast congrArg Nat.cast (mapSet_length_of_has _ _ _ hk)]
        exact h
      · have hkf : mapHasKey st.entries k = false := by simpa using hk
        have hlt : ¬(st.maxSize ≤ (st.entries.length : Int)) :=
          fun hle => hc ⟨hle, hkf⟩
        rw [show ((mapSet st.entries k ⟨v, now + ttl * 1000⟩).length : Int) =
            (st.entries.length : Int) + 1 by
          have := mapSet_length_of_not_has st.entries k
            (⟨v, now + ttl * 1000⟩ : CacheEntry α) hkf
          exact_mod_cast congrArg Nat.cast this]
        omega
  | get k now =>
    simp only [applyOp, MemoryCacheStore.get]
    cases hl : mapLookup st.entries k with
    | none =>
      dsimp only
      exact ⟨h, rfl⟩
    | some e =>
      dsimp only
      by_cases he : e.expiresAt ≤ now
      · rw [if_pos he]
        refine ⟨?_, rfl⟩
        have := mapDelete_length_le st.entries k
        have hcast : ((mapDelete st.entries k).length : Int) ≤
            (st.entries.length : Int) := by exact_mod_cast this
        exact le_trans hcast h
      · rw [if_neg he]
        exact ⟨h, rfl⟩
  | del k =>
    simp only [applyOp, MemoryCacheStore.delete]
    refine ⟨?_, by trivial⟩
    have := mapDelete_length_le st.entries k
    have hcast : ((mapDelete st.entries k).length : Int) ≤
        (st.entries.length : Int) := by exact_mod_cast this
    exact le_trans hcast h

theorem applyOps_size_bound {α : Type} :
    ∀ (ops : List (StoreOp α)) (st : MemoryCacheStore α),
      (st.entries.length : Int) ≤ max st.maxSize 1 →
      ((applyOps st ops).entries.length : Int) ≤ max st.maxSize 1 ∧
        (applyOps st ops).maxSize = st.maxSize := by
  intro ops
  induction ops with
  | nil => intro st h; exact ⟨h, rfl⟩
  | cons op ops ih =>
    intro st h
    have h1 := applyOp_size_bound st op h
    have h2 := ih (applyOp st op) (by rw [h1.2]; exact h1.1)
    have hstep : applyOps st (op :: ops) = applyOps (applyOp st op) ops := rfl
    constructor
    · rw [hstep]
      have := h2.1
      rw [h1.2] at this
      exact this
    · rw [hstep, h2.2, h1.2]

/-- C10: the constructor `opts?.maxSize ?? 1000` performs no
validation, and for every configured `maxSize` — including zero and
negative values — every sequence of `get`/`set`/`delete` operations
starting from the empty store leaves at most `max(maxSize, 1)` resident
entries: each `set` deletes at most one oldest entry and inserts exactly
one, so an at-capacity (or over-capacity-configured) store stays at one
entry rather than rejecting inserts. -/
theorem memoryCacheStore_size_invariant {α : Type} :
    (∀ (maxSizeOpt : Option Int) (ops : List (StoreOp α)),
        ((applyOps (mkMemoryCacheStore α maxSizeOpt) ops).entries.length : Int) ≤
          max (maxSizeOpt.getD 1000) 1) ∧
      (∀ maxSizeOpt : Option Int,
        (mkMemoryCacheStore α maxSizeOpt).maxSize = maxSizeOpt.getD 1000) := by
  constructor
  · intro maxSizeOpt ops
    have h0 : (((mkMemoryCacheStore α maxSizeOpt).entries.length : Int)) ≤
        max (mkMemoryCacheStore α maxSizeOpt).maxSize 1 := by
      have : ((0 : Nat) : Int) ≤ max (maxSizeOpt.getD 1000) 1 :=
        le_trans (by norm_num) (le_max_right _ _)
      exact this
    have := (applyOps_size_bound ops (mkMemoryCacheStore α maxSizeOpt) h0).1
    exact this
  · intro maxSizeOpt
    rfl

/-! ### McpProxy.callTool (`proxy.ts`)

`callTool` resolves the tool name through the router, looks the backend
up in the backends map, and runs the middleware chain with a final
handler that awaits `backend.callTool` inside `try/catch`
(`proxy.ts` lines 97–138).  A backend is modelled as a function that
either returns a result or throws (`Except.error`); the thrown value is
modelled by its extracted message (`extractErrorMessage`). -/

/-- A backend client's `callTool`, which can throw: `Except.error m`
models a thrown error whose `extractErrorMessage` is `m`. -/
def Backend (α : Type) : Type :=
  String → α → Except String MiddlewareResult

/-- The proxy state `callTool` consults: routing rules, the backends
map (insertion-ordered, keyed by server name) and the middleware list. -/
structure ProxyModel (α ε : Type) where
  routing : List RoutingRule
  backends : List (String × Backend α)
  middleware : List (ProxyMiddleware α ε)

/-- The error result for a tool name no routing rule matches. -/
def noRouteResult (toolName : String) : MiddlewareResult :=
  ⟨[⟨"text", "No routing rule matches tool \"" ++ toolName ++ "\""⟩], true⟩

/-- The error result for a routed-to backend missing from the map. -/
def backendNotFoundResult (serverName : String) : MiddlewareResult :=
  ⟨[⟨"text", "Backend \"" ++ serverName ++ "\" not found"⟩], true⟩

/-- The error result the `catch` block builds from a thrown error. -/
def backendErrorResult (message : String) : MiddlewareResult :=
  ⟨[⟨"text", "Backend error: " ++ message⟩], true⟩

/-- The final handler of the chain: await `backend.callTool` and convert
a thrown error into `backendErrorResult` (the `try/catch` of
`proxy.ts` lines 125–137). -/
def backendHandler {α ε : Type} (b : Backend α) (ctx : MiddlewareContext α) :
    List ε → List ε × MiddlewareResult :=
  fun log =>
    match b ctx.toolName ctx.arguments with
    | .ok r => (log, r)
    | .error msg => (log, backendErrorResult msg)

/-- Embeds `McpProxy.callTool` (`proxy.ts` lines 97–138). -/
def McpProxy.callTool {α ε : Type} (p : ProxyModel α ε) (toolName : String)
    (args : α) : List ε × MiddlewareResult :=
  match Router.resolve p.routing toolName with
  | none => ([], noRouteResult toolName)
  | some serverName =>
    match mapLookup p.backends serverName with
    | none => ([], backendNotFoundResult serverName)
    | some backend =>
      let ctx : MiddlewareContext α := ⟨toolName, args, serverName⟩
      executeMiddlewareChain p.middleware ctx (backendHandler backend ctx) []

/-- C1: `callTool` always returns a structured result rather than
propagating an exception: with no matching routing rule it returns the
`isError` result `No routing rule matches tool "<name>"`; with the
resolved backend absent from the map it returns
`Backend "<server>" not found`; and when the backend's `callTool`
throws, the final handler converts the thrown error into
`{ content:[{type:"text", text:"Backend error: <message>"}],
isError:true }`, which (with an empty middleware list) is exactly what
`callTool` returns. -/
theorem callTool_structured_errors {α ε : Type} :
    (∀ (p : ProxyModel α ε) (t : String) (a : α),
        Router.resolve p.routing t = none →
        McpProxy.callTool p t a = ([], noRouteResult t)) ∧
      (∀ (p : ProxyModel α ε) (t : String) (a : α) (s : String),
        Router.resolve p.routing t = some s →
        mapLookup p.backends s = none →
        McpProxy.callTool p t a = ([], backendNotFoundResult s)) ∧
      (∀ (b : Backend α) (ctx : MiddlewareContext α) (log : List ε)
          (msg : String),
        b ctx.toolName ctx.arguments = Except.error msg →
        backendHandler b ctx log = (log, backendErrorResult msg)) ∧
      (∀ (p : ProxyModel α ε) (t : String) (a : α) (s : String)
          (b : Backend α) (msg : String),
        Router.resolve p.routing t = some s →
        mapLookup p.backends s = some b →
        p.middleware = [] →
        b t a = Except.error msg →
        McpProxy.callTool p t a = ([], backendErrorResult msg)) := by
  refine ⟨?_, ?_, ?_, ?_⟩
  · intro p t a hres
    simp [McpProxy.callTool, hres]
  · intro p t a s hres hb
    simp [McpProxy.callTool, hres, hb]
  · intro b ctx log msg hthrow
    simp [backendHandler, hthrow]
  · intro p t a s b msg hres hb hmw hthrow
    simp [McpProxy.callTool, hres, hb, hmw, executeMiddlewareChain,
      backendHandler, hthrow]

/-- C1 witness: a routing-less proxy, a proxy routed to a missing
backend, and a proxy whose backend throws `"boom"`, each at a concrete
call. -/
theorem callTool_structured_errors_witness :
    McpProxy.callTool (⟨[], [], []⟩ : ProxyModel Nat Nat) "ping" 0 =
        ([], noRouteResult "ping") ∧
      McpProxy.callTool (⟨[⟨"*", "s1"⟩], [], []⟩ : ProxyModel Nat Nat)
          "ping" 0 = ([], backendNotFoundResult "s1") ∧
      backendHandler (fun _ _ => Except.error "boom")
          (⟨"ping", 0, "s1"⟩ : MiddlewareContext Nat) ([] : List Nat) =
        ([], backendErrorResult "boom") ∧
      McpProxy.callTool
          (⟨[⟨"*", "s1"⟩], [("s1", fun _ _ => Except.error "boom")], []⟩ :
            ProxyModel Nat Nat) "ping" 0 = ([], backendErrorResult "boom") :=
  ⟨callTool_structured_errors.1 ⟨[], [], []⟩ "ping" 0 (by decide),
    callTool_structured_errors.2.1 ⟨[⟨"*", "s1"⟩], [], []⟩ "ping" 0 "s1"
      (by decide) rfl,
    callTool_structured_errors.2.2.1 (fun _ _ => Except.error "boom")
      ⟨"ping", 0, "s1"⟩ [] "boom" rfl,
    callTool_structured_errors.2.2.2 ⟨[⟨"*", "s1"⟩],
      [("s1", fun _ _ => Except.error "boom")], []⟩ "ping" 0 "s1"
      (fun _ _ => Except.error "boom") "boom" (by decide) rfl rfl rfl⟩

/-! ### Collector accumulators (`collector.ts`, `utils.ts`)

`updateAccumulator` pushes the event's duration into the bounded
`durations` window (one `shift()` when the window overflows) while
`count`/`totalMs`/`errorCount`/`lastCalledAt` track lifetime totals.
Durations and derived statistics are modelled as rationals. -/

/-- The fields of a recorded `ToolCallEvent` that the accumulator
reads. -/
structure ToolCallEvent where
  success : Bool
  durationMs : Rat
  timestamp : Int

/-- A per-tool accumulator (`collector.ts` lines 13–20). -/
structure ToolAccumulator where
  count : Nat
  errorCount : Nat
  totalMs : Rat
  durations : List Rat
  lastCalledAt : Int

/-- `newAccumulator` (`collector.ts` lines 232–240). -/
def newAccumulator : ToolAccumulator := ⟨0, 0, 0, [], 0⟩

/-- The effective window size: the constructor clamps
`Math.max(1, options.toolWindowSize ?? 2048)` (`collector.ts` line 59). -/
def collectorToolWindowSize (opt : Option Nat) : Nat :=
  max 1 (opt.getD 2048)

/-- Embeds `updateAccumulator` (`collector.ts` lines 255–264): push the
duration, then `shift()` once when the window exceeds `toolWindowSize`. -/
def updateAccumulator (w : Nat) (acc : ToolAccumulator) (e : ToolCallEvent) :
    ToolAccumulator :=
  let durations := acc.durations ++ [e.durationMs]
  { count := acc.count + 1
    errorCount := acc.errorCount + (if e.success then 0 else 1)
    totalMs := acc.totalMs + e.durationMs
    durations := if w < durations.length then durations.drop 1 else durations
    lastCalledAt := e.timestamp }

/-- Embeds `percentile` (`utils.ts` lines 14–26): linear interpolation
between the two closest ranks of an already-sorted list. -/
def percentile (sorted : List Rat) (p : Rat) : Rat :=
  if sorted.length = 0 then 0
  else if sorted.length = 1 then sorted.getD 0 0
  else
    let index := (p / 100) * ((sorted.length : Rat) - 1)
    let lower := ⌊index⌋
    let upper := ⌈index⌉
    if lower = upper then sorted.getD lower.toNat 0
    else
      let weight := index - (lower : Rat)
      sorted.getD lower.toNat 0 * (1 - weight) +
        sorted.getD upper.toNat 0 * weight

/-- The derived per-tool read model (`types.ts` / spec `ToolStats`). -/
structure ToolStats where
  count : Nat
  errorCount : Nat
  errorRate : Rat
  p50Ms : Rat
  p95Ms : Rat
  p99Ms : Rat
  avgMs : Rat
  lastCalledAt : Int

/-- Embeds `accToStats` (`collector.ts` lines 266–278): sort a copy of
the retained window ascending, then report percentiles and lifetime
averages. -/
def accToStats (acc : ToolAccumulator) : ToolStats :=
  let sortedDurations := acc.durations.insertionSort (fun a b => a ≤ b)
  { count := acc.count
    errorCount := acc.errorCount
    errorRate := if 0 < acc.count then (acc.errorCount : Rat) / acc.count else 0
    p50Ms := percentile sortedDurations 50
    p95Ms := percentile sortedDurations 95
    p99Ms := percentile sortedDurations 99
    avgMs := if 0 < acc.count then acc.totalMs / acc.count else 0
    lastCalledAt := acc.lastCalledAt }

theorem updateAccumulator_durations_le (w : Nat) (acc : ToolAccumulator)
    (e : ToolCallEvent) (h : acc.durations.length ≤ w) :
    (updateAccumulator w acc e).durations.length ≤ w := by
  simp only [updateAccumulator]
  by_cases hc : w < (acc.durations ++ [e.durationMs]).length
  · rw [if_pos hc]
    simp only [List.length_drop, List.length_append, List.length_singleton]
    omega
  · rw [if_neg hc]
    simp only [List.length_append, List.length_singleton] at hc ⊢
    omega

theorem foldl_updateAccumulator (w : Nat) :
    ∀ (events : List ToolCallEvent) (acc : ToolAccumulator),
      (events.foldl (updateAccumulator w) acc).count =
          acc.count + events.length ∧
        (events.foldl (updateAccumulator w) acc).totalMs =
          acc.totalMs + (events.map (fun e => e.durationMs)).sum ∧
        (events.foldl (updateAccumulator w) acc).errorCount =
          acc.errorCount + (events.filter (fun e => !e.success)).length ∧
        (acc.durations.length ≤ w →
          (events.foldl (updateAccumulator w) acc).durations.length ≤ w) := by
  intro events
  induction events with
  | nil => exact fun acc => ⟨by simp, by simp, by simp, fun h => h⟩
  | cons e es ih =>
    intro acc
    obtain ⟨h1, h2, h3, h4⟩ := ih (updateAccumulator w acc e)
    refine ⟨?_, ?_, ?_, ?_⟩
    · rw [List.foldl_cons, h1]
      simp only [updateAccumulator, List.length_cons]
      omega
    · rw [List.foldl_cons, h2]
      simp only [updateAccumulator, List.map_cons, List.sum_cons]
      ring
    · rw [List.foldl_cons, h3]
      by_cases hs : e.success
      · simp [updateAccumulator, hs, List.filter_cons]
      · simp [updateAccumulator, hs, List.filter_cons]
        omega
    · intro hlen
      rw [List.foldl_cons]
      exact h4 (updateAccumulator_durations_le w acc e hlen)

/-- The events of the spec's percentile-window scenario: durations
`10, 20, 30, 40, 50`, all successful. -/
def c8Events : List ToolCallEvent :=
  ([10, 20, 30, 40, 50] : List Rat).map (fun d => ⟨true, d, 0⟩)

/-- The accumulator after recording `c8Events` with
`toolWindowSize = 3`. -/
def c8Acc : ToolAccumulator :=
  c8Events.foldl (updateAccumulator (collectorToolWindowSize (some 3)))
    newAccumulator

/-- C8: for every configured window and event sequence, the retained
`durations` window never exceeds the effective `toolWindowSize` while
`count`, `totalMs` and `errorCount` stay lifetime-exact; and in the
concrete scenario `toolWindowSize = 3` with durations
`10, 20, 30, 40, 50`, the stats report `count = 5`, `avgMs = 30`, the
retained window is `[30, 40, 50]` (oldest discarded first), and `p50`
over that window is `40`. -/
theorem accumulator_window_and_stats :
    (∀ (opt : Option Nat) (events : List ToolCallEvent),
        (events.foldl (updateAccumulator (collectorToolWindowSize opt))
              newAccumulator).durations.length ≤
            collectorToolWindowSize opt ∧
          (events.foldl (updateAccumulator (collectorToolWindowSize opt))
              newAccumulator).count = events.length ∧
          (events.foldl (updateAccumulator (collectorToolWindowSize opt))
              newAccumulator).totalMs =
            (events.map (fun e => e.durationMs)).sum ∧
          (events.foldl (updateAccumulator (collectorToolWindowSize opt))
              newAccumulator).errorCount =
            (events.filter (fun e => !e.success)).length) ∧
      ((accToStats c8Acc).count = 5 ∧ (accToStats c8Acc).avgMs = 30 ∧
        c8Acc.durations = [30, 40, 50] ∧ (accToStats c8Acc).p50Ms = 40) := by
  constructor
  · intro opt events
    obtain ⟨h1, h2, h3, h4⟩ :=
      foldl_updateAccumulator (collectorToolWindowSize opt) events
        newAccumulator
    refine ⟨h4 (by simp [newAccumulator]), ?_, ?_, ?_⟩
    · rw [h1]
      simp [newAccumulator]
    · rw [h2]
      simp [newAccumulator]
    · rw [h3]
      simp [newAccumulator]
  · have hd : c8Acc.durations = [30, 40, 50] := by decide
    have hc : c8Acc.count = 5 := by decide
    have ht : c8Acc.totalMs = 150 := by
      norm_num [c8Acc, c8Events, newAccumulator, updateAccumulator,
        collectorToolWindowSize, List.foldl]
    refine ⟨?_, ?_, hd, ?_⟩
    · simp [accToStats, hc]
    · simp only [accToStats]
      rw [hc, ht]
      norm_num
    · simp only [accToStats]
      rw [hd]
      have hs : List.insertionSort (fun a b => a ≤ b) [(30 : Rat), 40, 50] =
          [30, 40, 50] := by
        norm_num [List.insertionSort, List.orderedInsert]
      rw [hs]
      simp only [percentile, List.length_cons, List.length_nil]
      norm_num

/-! ### Collector.flush (`collector.ts`)

`flush` is single-flight: a caller that finds `flushInFlight` set awaits
it and returns without touching the exporter.  `flushPending` loops:
swap the pending queue out as a batch, await the exporter — during which
further events may be recorded — and on failure put the batch back in
front of whatever arrived, rethrowing.  The model serialises this
cooperative interleaving: one exporter call consumes one entry of a
behaviour list `(succeeded?, events recorded during the await)`, an
exhausted behaviour list standing for an exporter that succeeds with no
concurrent arrivals.  Each run returns the batches passed to the
exporter, the final pending queue, and whether it completed without
throwing. -/

/-- The collector state `flush` touches: the pending queue and the
`flushInFlight` guard. -/
structure CollectorFlushState (E : Type) where
  pending : List E
  inFlight : Bool

/-- `record`'s effect on the pending queue (`collector.ts` line 94). -/
def Collector.record {E : Type} (st : CollectorFlushState E) (e : E) :
    CollectorFlushState E :=
  ⟨st.pending ++ [e], st.inFlight⟩

/-- Embeds `flushPending` (`collector.ts` lines 218–230). -/
def flushPending {E : Type} :
    List (Bool × List E) → List E → List (List E) × List E × Bool
  | _, [] => ([], [], true)
  | [], pending => ([pending], [], true)
  | (ok, arrivals) :: rest, pending =>
    if ok then
      let r := flushPending rest arrivals
      (pending :: r.1, r.2.1, r.2.2)
    else ([pending], pending ++ arrivals, false)

/-- Embeds `flush` (`collector.ts` lines 178–193): a caller that finds a
flush in flight awaits it and returns, performing no exporter call of
its own; otherwise it runs `flushPending` and clears the guard. -/
def Collector.flush {E : Type} (beh : List (Bool × List E))
    (st : CollectorFlushState E) :
    List (List E) × CollectorFlushState E × Bool :=
  if st.inFlight then ([], st, true)
  else
    let r := flushPending beh st.pending
    (r.1, ⟨r.2.1, false⟩, r.2.2)

/-- C7: `flush` is single-flight (a caller that finds a flush in flight
performs no exporter call and leaves the state unchanged), a flush with
an empty pending queue never calls the exporter, a failing export puts
the swapped-out batch back in front of events recorded during the await
and reports the error, and in the fail-once-then-succeed scenario the
first flush passes `[e1, e2]` to the exporter and throws leaving both
events queued, while the second flush delivers exactly the single batch
`[e1, e2]` in original order and succeeds. -/
theorem collector_flush_single_flight_requeue {E : Type} :
    (∀ (beh : List (Bool × List E)) (p : List E),
        Collector.flush beh ⟨p, true⟩ = ([], ⟨p, true⟩, true)) ∧
      (∀ beh : List (Bool × List E),
        flushPending beh ([] : List E) = ([], [], true) ∧
          Collector.flush beh ⟨[], false⟩ = ([], ⟨[], false⟩, true)) ∧
      (∀ (e : E) (p arrivals : List E) (rest : List (Bool × List E)),
        flushPending ((false, arrivals) :: rest) (e :: p) =
          ([e :: p], (e :: p) ++ arrivals, false)) ∧
      (∀ e1 e2 : E,
        Collector.flush [(false, [])]
            (Collector.record (Collector.record ⟨[], false⟩ e1) e2) =
          ([[e1, e2]], ⟨[e1, e2], false⟩, false) ∧
          Collector.flush [(true, [])] ⟨[e1, e2], false⟩ =
            ([[e1, e2]], ⟨[], false⟩, true)) := by
  refine ⟨fun beh p => rfl, fun beh => ⟨?_, ?_⟩, fun e p arrivals rest => rfl,
    fun e1 e2 => ⟨rfl, rfl⟩⟩
  · cases beh with
    | nil => rfl
    | cons b rest => rfl
  · cases beh with
    | nil => rfl
    | cons b rest => rfl

/-! ### Per-session sampling (`packages/analytics/src/middleware.ts`)

`sampleForSession` draws `Math.random() < sampleRate` at most once per
session key, caching the boolean in `sessionSamplingDecisions`;
`cleanupPendingCalls` clears that cache on transport teardown.  The
stream of `Math.random() < sampleRate` outcomes is modelled as an
explicit function from draw index to boolean. -/

/-- The `samplingStrategy` configuration value. -/
inductive SamplingStrategy where
  | perCall
  | perSession

/-- The interceptor state the sampler touches: the per-session decision
cache and the index of the next random draw. -/
structure SamplingState where
  cache : List (String × Bool)
  nextDraw : Nat

/-- The session key: the transport's session id, or `"unknown"`
(`middleware.ts` line 375: `target.sessionId ?? "unknown"`). -/
def sessionKeyOf (sessionId : Option String) : String :=
  sessionId.getD "unknown"

/-- Embeds `sampleForSession` (`middleware.ts` lines 318–329): under
`per_call` every request draws independently; under `per_session` a
cached decision is returned, otherwise one draw is made and cached. -/
def sampleForSession (strategy : SamplingStrategy) (draws : Nat → Bool)
    (key : String) (st : SamplingState) : Bool × SamplingState :=
  match strategy with
  | .perCall => (draws st.nextDraw, ⟨st.cache, st.nextDraw + 1⟩)
  | .perSession =>
    match mapLookup st.cache key with
    | some cached => (cached, st)
    | none =>
      let d := draws st.nextDraw
      (d, ⟨st.cache ++ [(key, d)], st.nextDraw + 1⟩)

/-- Embeds `cleanupPendingCalls` (`middleware.ts` lines 353–359) as far
as the sampling cache is concerned: `sessionSamplingDecisions.clear()`. -/
def cleanupPendingCalls (st : SamplingState) : SamplingState :=
  ⟨[], st.nextDraw⟩

/-- Process a sequence of `tools/call` requests (given by session key)
under `per_session` sampling, returning each request's decision. -/
def processRequests (draws : Nat → Bool) :
    List String → SamplingState → List Bool × SamplingState
  | [], st => ([], st)
  | k :: ks, st =>
    let r := sampleForSession .perSession draws k st
    let rest := processRequests draws ks r.2
    (r.1 :: rest.1, rest.2)

theorem sampleForSession_mono (draws : Nat → Bool) (k' : String)
    (st : SamplingState) (k : String) (b : Bool)
    (h : mapLookup st.cache k = some b) :
    mapLookup (sampleForSession .perSession draws k' st).2.cache k = some b := by
  simp only [sampleForSession]
  cases hl : mapLookup st.cache k' with
  | some c => exact h
  | none =>
    dsimp only
    simp only [mapLookup, List.find?_append]
    simp only [mapLookup] at h
    cases hf : st.cache.find? (fun p => p.1 == k) with
    | none => rw [hf] at h; cases h
    | some pr =>
      rw [hf] at h
      simp [Option.orElse, hf, h]

theorem sampleForSession_caches (draws : Nat → Bool) (k : String)
    (st : SamplingState) :
    mapLookup (sampleForSession .perSession draws k st).2.cache k =
      some (sampleForSession .perSession draws k st).1 := by
  simp only [sampleForSession]
  cases hl : mapLookup st.cache k with
  | some c => exact hl
  | none =>
    dsimp only
    simp only [mapLookup, List.find?_append]
    simp only [mapLookup] at hl
    cases hf : st.cache.find? (fun p => p.1 == k) with
    | some pr => rw [hf] at hl; cases hl
    | none => simp [Option.orElse, List.find?]

theorem processRequests_mono (draws : Nat → Bool) :
    ∀ (ks : List String) (st : SamplingState) (k : String) (b : Bool),
      mapLookup st.cache k = some b →
      mapLookup (processRequests draws ks st).2.cache k = some b := by
  intro ks
  induction ks with
  | nil => intro st k b h; exact h
  | cons k0 ks ih =>
    intro st k b h
    exact ih _ k b (sampleForSession_mono draws k0 st k b h)

theorem processRequests_decision_cached (draws : Nat → Bool) :
    ∀ (ks : List String) (st : SamplingState) (i : Nat), i < ks.length →
      mapLookup (processRequests draws ks st).2.cache (ks.getD i "") =
        some ((processRequests draws ks st).1.getD i false) := by
  intro ks
  induction ks with
  | nil => intro st i hi; cases hi
  | cons k0 ks ih =>
    intro st i hi
    cases i with
    | zero =>
      simp only [processRequests, List.getD_cons_zero]
      exact processRequests_mono draws ks _ k0 _
        (sampleForSession_caches draws k0 st)
    | succ i =>
      simp only [processRequests, List.getD_cons_succ]
      exact ih _ i (by simpa using hi)

/-- C9: under `per_session` sampling every request sharing a session key
receives the same decision as the first request on that key (the
decision is drawn once and cached for the session's lifetime),
interceptor teardown clears the decision cache, and the session key is
the transport's session id with the sentinel `"unknown"` when absent. -/
theorem perSession_sampling_consistent :
    (∀ (draws : Nat → Bool) (keys : List String) (i j : Nat),
        i < keys.length → j < keys.length →
        keys.getD i "" = keys.getD j "" →
        (processRequests draws keys ⟨[], 0⟩).1.getD i false =
          (processRequests draws keys ⟨[], 0⟩).1.getD j false) ∧
      (∀ st : SamplingState, (cleanupPendingCalls st).cache = []) ∧
      sessionKeyOf none = "unknown" ∧
      (∀ s : String, sessionKeyOf (some s) = s) := by
  refine ⟨?_, fun st => rfl, rfl, fun s => rfl⟩
  intro draws keys i j hi hj hkey
  have h1 := processRequests_decision_cached draws keys ⟨[], 0⟩ i hi
  have h2 := processRequests_decision_cached draws keys ⟨[], 0⟩ j hj
  rw [hkey] at h1
  rw [h1] at h2
  exact (Option.some.injEq _ _ ▸ h2 : _)

/-- C9 witness: three requests on keys `s, t, s` — the first and third
share a session key, so they receive equal decisions. -/
theorem perSession_sampling_consistent_witness :
    (processRequests (fun n => n == 0) ["s", "t", "s"]
        ⟨[], 0⟩).1.getD 0 false =
      (processRequests (fun n => n == 0) ["s", "t", "s"]
        ⟨[], 0⟩).1.getD 2 false :=
  perSession_sampling_consistent.1 (fun n => n == 0) ["s", "t", "s"] 0 2
    (by decide) (by decide) (by decide)

end Gomcp
